import Mathlib

/-!
Verification development for the Markdown MCQ exam runner (`mcq_exam.py`).

The program is embedded shallowly over `List Char` / `String`:
strings are processed character by character exactly as the Python
regular expressions and string methods do on ASCII text (the regex
classes `\s`, `\d`, `[A-Za-z]`, `[A-Z]` are modelled as their ASCII
classes, which is what the exam documents contain).

Sections:
1. character classes and whitespace normalisation (`re.sub(r"\s+", " ", t).strip()`);
2. the four tag/entity removal substitutions of `clean_question_text`;
3. the `Question` model and the line-oriented parser `parse_markdown_exam_text`;
4. the interactive session `run_quiz` as a function of an input script;
5. theorems about the claims.
-/

/-- Characters matched by the Python regex class `\s` (ASCII part),
also the characters removed by `str.strip()`. -/
def pySpace (c : Char) : Bool :=
  c = ' ' || c = '\t' || c = '\n' || c = '\r' || c = '\x0b' || c = '\x0c'

/-- Replace every maximal run of `\s` characters by a single space:
this is exactly `re.sub(r"\s+", " ", text)`, character by character. -/
def collapse : List Char → List Char
  | [] => []
  | [c] => if pySpace c then [' '] else [c]
  | c1 :: c2 :: cs =>
    if pySpace c1 && pySpace c2 then collapse (c2 :: cs)
    else (if pySpace c1 then ' ' else c1) :: collapse (c2 :: cs)

/-- Remove a trailing run of whitespace (the right half of `str.strip()`). -/
def stripEnd (l : List Char) : List Char :=
  ((l.reverse).dropWhile pySpace).reverse

/-- Python `str.strip()`: drop leading and trailing whitespace. -/
def stripL (l : List Char) : List Char :=
  stripEnd (l.dropWhile pySpace)

/-- Model of `re.sub(r"\s+", " ", text).strip()`, the final step of
`clean_question_text`. -/
def normWs (l : List Char) : List Char :=
  stripL (collapse l)

/-- Consume the pattern `p` (given in lowercase) case-insensitively from the
front of `l`; return the rest on success.  Models a case-insensitive regex
literal such as `details` under `re.IGNORECASE`. -/
def ciEat : List Char → List Char → Option (List Char)
  | [], l => some l
  | _ :: _, [] => none
  | p :: ps, c :: cs => if c.toLower = p then ciEat ps cs else none

/-- Consume the pattern `p` exactly from the front of `l`. -/
def eatSeq : List Char → List Char → Option (List Char)
  | [], l => some l
  | _ :: _, [] => none
  | p :: ps, c :: cs => if c = p then eatSeq ps cs else none

/-- Does the (lowercase) pattern `p` occur case-insensitively anywhere in `l`? -/
def hasSubCI (p : List Char) : List Char → Bool
  | [] => (ciEat p []).isSome
  | c :: cs => (ciEat p (c :: cs)).isSome || hasSubCI p cs

/-- Scan for the first case-insensitive occurrence of `close` and return the
remainder after it: the continuation of a non-greedy `[\s\S]*?` followed by
the closing literal. -/
def findCloseCI (close : List Char) : List Char → Option (List Char)
  | [] => none
  | c :: cs =>
    match ciEat close (c :: cs) with
    | some r => some r
    | none => findCloseCI close cs

/-- The exact escaped opening bracket `&lt;`. -/
def ltPat : List Char := "&lt;".toList

/-- The tail `gt;` of the exact escaped closing bracket `&gt;`. -/
def gtTailPat : List Char := "gt;".toList

/-- Lowercase spelling of `&lt;details`, the opening of the escaped
details-block pattern `DETAILS_ENTITY_BLOCK_RE` (matched case-insensitively). -/
def entOpenPat : List Char := "&lt;details".toList

/-- Lowercase spelling of `&lt;/details&gt;`, the closing of the escaped
details-block pattern. -/
def entClosePat : List Char := "&lt;/details&gt;".toList

/-- Lowercase spelling of `details`, following a literal `<` in
`DETAILS_HTML_BLOCK_RE`. -/
def detailsPat : List Char := "details".toList

/-- Lowercase spelling of `</details>`, the closing of the literal
details-block pattern. -/
def htmlClosePat : List Char := "</details>".toList

/-- Match `DETAILS_ENTITY_BLOCK_RE = &lt;details[\s\S]*?&lt;/details&gt;`
(case-insensitive) at the current position; return the remainder after the
match.  The non-greedy `[\s\S]*?` stops at the first occurrence of the
closing literal. -/
def matchDetEntAt (l : List Char) : Option (List Char) :=
  (ciEat entOpenPat l).bind (findCloseCI entClosePat)

/-- Continuation of `ANGLE_ENTITY_RE = &lt;[^&]*?&gt;` after the opening
`&lt;`: a non-greedy run of non-`&` characters followed by the exact `&gt;`.
The lazy run extends to the first `&`, which must begin `&gt;`. -/
def angInner : List Char → Option (List Char)
  | [] => none
  | c :: cs =>
    if c = '&' then
      match eatSeq gtTailPat cs with
      | some r => some r
      | none => none
    else angInner cs

/-- Match `ANGLE_ENTITY_RE = &lt;[^&]*?&gt;` (case-sensitive: the pattern has
no `re.IGNORECASE` flag) at the current position. -/
def matchAngEntAt (l : List Char) : Option (List Char) :=
  (eatSeq ltPat l).bind angInner

/-- Match `DETAILS_HTML_BLOCK_RE = <details[\s\S]*?</details>`
(case-insensitive) at the current position. -/
def matchHtmlDetAt : List Char → Option (List Char)
  | '<' :: rest => (ciEat detailsPat rest).bind (findCloseCI htmlClosePat)
  | _ => none

/-- Scan for the first `>` and return the remainder after it: the
continuation of `[^>]+` followed by `>` once at least one non-`>` character
has been consumed. -/
def tagInner : List Char → Option (List Char)
  | [] => none
  | c :: cs => if c = '>' then some cs else tagInner cs

/-- Match `ANY_HTML_TAG_RE = <[^>]+>` at the current position. -/
def matchTagAt : List Char → Option (List Char)
  | '<' :: c :: cs => if c = '>' then none else tagInner cs
  | _ => none

/-- Fueled engine for `re.sub(pattern, "", text)`: scan left to right; on a
match, emit nothing and continue after it, otherwise keep one character and
advance.  Every matcher consumes at least one character, so fuel equal to the
length of the list always suffices (`subRe` below). -/
def subF (m : List Char → Option (List Char)) : Nat → List Char → List Char
  | 0, l => l
  | _ + 1, [] => []
  | f + 1, c :: cs =>
    match m (c :: cs) with
    | some r => subF m f r
    | none => c :: subF m f cs

/-- `re.sub(pattern, "", text)` for a matcher `m`. -/
def subRe (m : List Char → Option (List Char)) (l : List Char) : List Char :=
  subF m l.length l

/-- Model of `clean_question_text`: remove escaped details blocks, escaped
angle fragments, literal details blocks, then any remaining literal tags, and
finally collapse whitespace and strip.  Empty (falsy) input is returned
unchanged. -/
def clean_question_text (s : List Char) : List Char :=
  if s.isEmpty then s
  else
    normWs (subRe matchTagAt (subRe matchHtmlDetAt (subRe matchAngEntAt (subRe matchDetEntAt s))))

/-- Numeric value of a digit string, as produced by Python `int()` on the
digits captured by `QUESTION_RE`. -/
def natOfDigits (ds : List Char) : Nat :=
  ds.foldl (fun a c => 10 * a + (c.toNat - 48)) 0

/-- Match `QUESTION_RE = ^\s*(\d+)\.\s+(.*)` against a line: optional leading
whitespace, at least one digit, a dot, at least one whitespace character,
then the rest of the line.  Returns the question number and the raw prompt
text. -/
def matchQuestionLine (l : List Char) : Option (Nat × List Char) :=
  let l1 := l.dropWhile pySpace
  let ds := l1.takeWhile Char.isDigit
  if ds.isEmpty then none
  else
    match l1.dropWhile Char.isDigit with
    | '.' :: l2 =>
      if (l2.takeWhile pySpace).isEmpty then none
      else some (natOfDigits ds, l2.dropWhile pySpace)
    | _ => none

/-- Match `CHOICE_RE = ^\s*-\s*([A-Z])\.\s*(.*)` against a line.  Returns the
choice letter (an uppercase ASCII letter, `Char.isUpper` is exactly `[A-Z]`)
and the rest of the line after the dot and any whitespace. -/
def matchChoiceLine (l : List Char) : Option (Char × List Char) :=
  match l.dropWhile pySpace with
  | '-' :: l1 =>
    (match l1.dropWhile pySpace with
     | c :: '.' :: l2 => if c.isUpper then some (c, l2.dropWhile pySpace) else none
     | _ => none)
  | _ => none

/-- Match `CORRECT_RE = Correct\s+Answer:\s*([A-Z]+)` (case-insensitive) at
the current position; `[A-Z]+` under `re.IGNORECASE` is `Char.isAlpha`.
Returns the greedily captured letters. -/
def matchCorrectAt (l : List Char) : Option (List Char) :=
  match ciEat ("correct".toList) l with
  | none => none
  | some l1 =>
    if (l1.takeWhile pySpace).isEmpty then none
    else
      match ciEat ("answer:".toList) (l1.dropWhile pySpace) with
      | none => none
      | some l2 =>
        let ls := (l2.dropWhile pySpace).takeWhile Char.isAlpha
        if ls.isEmpty then none else some ls

/-- `CORRECT_RE.search`: first match anywhere in the line. -/
def searchCorrect : List Char → Option (List Char)
  | [] => none
  | c :: cs =>
    match matchCorrectAt (c :: cs) with
    | some ls => some ls
    | none => searchCorrect cs

/-- Continuation of `CHOOSE_RE` after the choose-word: `\.?\s*\)`.  When a
dot is present the regex must consume it (declining it leaves `\s*\)` facing
the dot, which cannot match). -/
def chooseTail (l : List Char) : Bool :=
  match (match l with | '.' :: r => r | _ => l).dropWhile pySpace with
  | ')' :: _ => true
  | _ => false

/-- The alternation `(one|two|three|four|five)` of `CHOOSE_RE` with its
continuation, returning `WORD_TO_INT` of the word; the five words are
mutually exclusive as case-insensitive prefixes. -/
def chooseWord (l : List Char) : Option Nat :=
  match ciEat ("one".toList) l with
  | some r => if chooseTail r then some 1 else none
  | none =>
    match ciEat ("two".toList) l with
    | some r => if chooseTail r then some 2 else none
    | none =>
      match ciEat ("three".toList) l with
      | some r => if chooseTail r then some 3 else none
      | none =>
        match ciEat ("four".toList) l with
        | some r => if chooseTail r then some 4 else none
        | none =>
          match ciEat ("five".toList) l with
          | some r => if chooseTail r then some 5 else none
          | none => none

/-- Match `CHOOSE_RE = \(\s*Choose\s+(one|two|three|four|five)\.?\s*\)`
(case-insensitive) at the current position. -/
def matchChooseAt : List Char → Option Nat
  | '(' :: l1 =>
    (match ciEat ("choose".toList) (l1.dropWhile pySpace) with
     | none => none
     | some l3 =>
       if (l3.takeWhile pySpace).isEmpty then none
       else chooseWord (l3.dropWhile pySpace))
  | _ => none

/-- `CHOOSE_RE.search`: first match anywhere in the prompt text. -/
def searchChoose : List Char → Option Nat
  | [] => none
  | c :: cs =>
    match matchChooseAt (c :: cs) with
    | some n => some n
    | none => searchChoose cs

/-- The `Question` model object: original number, prompt text, ordered
`(letter, text)` choices, correct letters, and the optional expected number
of selections. -/
structure Question where
  number : Nat
  text : List Char
  choices : List (Char × List Char)
  correct_letters : List Char
  choose_n : Option Nat
deriving DecidableEq, Repr

/-- `Question.infer_choose_n`: if `choose_n` is unset and `correct_letters`
is non-empty, set `choose_n` to the number of correct letters. -/
def inferChooseN (q : Question) : Question :=
  match q.choose_n with
  | some _ => q
  | none =>
    if q.correct_letters.isEmpty then q
    else { q with choose_n := some q.correct_letters.length }

/-- Finalisation of a question when the next one starts or input ends:
`infer_choose_n` followed by `clean_question_text` on the prompt. -/
def finalizeQ (q : Question) : Question :=
  let q1 := inferChooseN q
  { q1 with text := clean_question_text q1.text }

/-- Exact (case-sensitive) `str.startswith` test. -/
def startsWithSeq (p l : List Char) : Bool :=
  (eatSeq p l).isSome

/-- The keyword excluded from prompt continuation lines. -/
def ansPat : List Char := "Answer".toList

/-- Body of the line loop of `parse_markdown_exam_text` for one line, over
the state (current open question, emitted questions): a question line
finalizes and emits the previous question and opens a new one; with an open
question, a choice line appends an uppercased choice, a `Correct Answer`
line sets the correct letters and infers `choose_n`, and any other
non-empty line that does not start with a dash and whose stripped form does
not start with `Answer` is appended to the prompt. -/
def parseStep (st : Option Question × List Question) (line : List Char) :
    Option Question × List Question :=
  match matchQuestionLine line with
  | some nt =>
    (some { number := nt.1, text := stripL nt.2, choices := [],
            correct_letters := [], choose_n := searchChoose nt.2 },
     match st.1 with
     | some q => st.2 ++ [finalizeQ q]
     | none => st.2)
  | none =>
    match st.1 with
    | none => st
    | some q =>
      match matchChoiceLine line with
      | some ct =>
        (some { q with choices := q.choices ++ [(ct.1.toUpper, stripL ct.2)] }, st.2)
      | none =>
        match searchCorrect line with
        | some ls =>
          (some (inferChooseN { q with correct_letters := ls.map Char.toUpper }), st.2)
        | none =>
          if line.isEmpty then st
          else if line.headD ' ' = '-' then st
          else if startsWithSeq ansPat (stripL line) then st
          else (some { q with text := q.text ++ ' ' :: stripL line }, st.2)

/-- End of the parse: the last open question is finalized and kept only if
it has choices, and choice-less questions are filtered out. -/
def parseEnd (st : Option Question × List Question) : List Question :=
  (match st.1 with
   | some q => if q.choices.isEmpty then st.2 else st.2 ++ [finalizeQ q]
   | none => st.2).filter (fun q => !q.choices.isEmpty)

/-- The line loop of `parse_markdown_exam_text`: fold the per-line step over
the physical lines, then finalize. -/
def parseLines (lines : List (List Char)) (cur : Option Question) (acc : List Question) :
    List Question :=
  parseEnd (lines.foldl parseStep (cur, acc))

/-- Split on newline characters the way `str.splitlines()` does for
newline-terminated text: no empty final piece after a trailing newline. -/
def splitLinesAux : List Char → List Char → List (List Char)
  | [], acc => if acc.isEmpty then [] else [acc.reverse]
  | c :: rest, acc =>
    if c = '\n' then acc.reverse :: splitLinesAux rest []
    else splitLinesAux rest (c :: acc)

/-- Model of `str.splitlines()` (LF line endings). -/
def splitLines (l : List Char) : List (List Char) :=
  splitLinesAux l []

/-- `parse_markdown_exam_text`: split into lines and run the parser loop. -/
def parse_markdown_exam_text (s : String) : List Question :=
  parseLines (splitLines s.toList) none []

/-- The letters extracted from a raw answer:
`[ch.upper() for ch in re.findall(r"[A-Za-z]", raw)]` applied to the
stripped input line (`Char.isAlpha` is exactly `[A-Za-z]`). -/
def extractLetters (raw : String) : List Char :=
  ((stripL raw.toList).filter Char.isAlpha).map Char.toUpper

/-- Python truthiness of
`multi = (q.choose_n and q.choose_n > 1) or len(q.correct_letters) > 1`:
`None` and `0` are falsy. -/
def multiOf (q : Question) : Bool :=
  (match q.choose_n with
   | some n => decide (1 < n)
   | none => false) || decide (1 < q.correct_letters.length)

/-- `expected_n = q.choose_n or len(q.correct_letters)` with Python
truthiness: `None` and `0` fall back to the number of correct letters. -/
def expectedN (q : Question) : Nat :=
  match q.choose_n with
  | some (n + 1) => n + 1
  | _ => q.correct_letters.length

/-- Python `set(a) == set(b)`: the two lists have the same members. -/
def setEqB (a b : List Char) : Bool :=
  a.all (fun c => b.contains c) && b.all (fun c => a.contains c)

/-- Outcome of one pass through the body of the input-validation loop. -/
inductive StepResult where
  | retryEmpty : StepResult
  | retryInvalid : StepResult
  | retryCount : Nat → StepResult
  | answered : Bool → StepResult
  | indexErrorStop : StepResult
deriving DecidableEq, Repr

/-- One iteration of the answer validation loop of `run_quiz` (lines
214-246): extract letters, reject empty or invalid input, enforce the
distinct-letter count in multi-select mode, and evaluate correctness.  In
single-select mode with empty `correct_letters`, evaluating
`q.correct_letters[0]` raises `IndexError`. -/
def attemptAnswer (q0 : Question) (raw : String) : StepResult :=
  let q := inferChooseN q0
  match extractLetters raw with
  | [] => .retryEmpty
  | l0 :: ls =>
    let letters := l0 :: ls
    let valid := q.choices.map Prod.fst
    if !letters.all (fun c => valid.contains c) then .retryInvalid
    else if multiOf q then
      let expected := expectedN q
      if letters.dedup.length ≠ expected then .retryCount expected
      else .answered (setEqB letters q.correct_letters)
    else
      match q.correct_letters with
      | [] => .indexErrorStop
      | c :: _ => .answered (l0 = c)

/-- How the blocking read loop for one question ends. -/
inductive AskExit where
  | answered : Bool → AskExit
  | closed : AskExit
  | indexErrorStop : AskExit
deriving DecidableEq, Repr

/-- The `while True` read loop for one question, driven by the remaining
input script; an exhausted script is the `EOFError` of a closed input
stream. -/
def askLoop (q : Question) : List String → AskExit × List String
  | [] => (.closed, [])
  | raw :: rest =>
    match attemptAnswer q raw with
    | .answered b => (.answered b, rest)
    | .indexErrorStop => (.indexErrorStop, rest)
    | _ => askLoop q rest

/-- Observable print events of a session, restricted to the lines the claims
speak about: the per-question header, the running score line, the final
score line, the pass and fail messages, and the notice after a closed
input. -/
inductive Event where
  | header : Nat → Nat → Event
  | score : Nat → Nat → Event
  | finalScore : Nat → Nat → Event
  | passMsg : Event
  | failMsg : Event
  | inputClosed : Event
deriving DecidableEq, Repr

/-- How the question loop of `run_quiz` ends. -/
inductive LoopExit where
  | ranAll : Nat → LoopExit
  | closed : LoopExit
  | indexErrorStop : LoopExit
deriving DecidableEq, Repr

/-- The question loop of `run_quiz`: `correct`, `running_total` and the
1-based display index are threaded through; each question increments
`running_total` before reading input, and a closed input returns
immediately after printing the notice. -/
def quizLoop (total : Nat) : List Question → List String → Nat → Nat → Nat → List Event × LoopExit
  | [], _, c, _, _ => ([], .ranAll c)
  | q :: qs, inputs, c, r, idx =>
    match askLoop q inputs with
    | (.closed, _) => ([.header idx total, .inputClosed], .closed)
    | (.indexErrorStop, _) => ([.header idx total], .indexErrorStop)
    | (.answered b, rest) =>
      (.header idx total ::
        .score (if b then c + 1 else c) (r + 1) ::
        (quizLoop total qs rest (if b then c + 1 else c) (r + 1) (idx + 1)).1,
       (quizLoop total qs rest (if b then c + 1 else c) (r + 1) (idx + 1)).2)

/-- `questions[:limit]` for an arbitrary Python `int` limit: a nonnegative
limit keeps the first `limit` elements, a negative limit drops the last
`-limit` elements. -/
def pySliceTo (l : List Question) (n : Int) : List Question :=
  if 0 ≤ n then l.take n.toNat else l.take (l.length - (-n).toNat)

/-- The truncation step of `run_quiz`: applied only when a limit is set. -/
def applyLimit (qs : List Question) (limit : Option Int) : List Question :=
  match limit with
  | none => qs
  | some n => pySliceTo qs n

/-- Final state of a modelled session. -/
inductive Outcome where
  | completed : Outcome
  | inputClosed : Outcome
  | indexErrorStop : Outcome
  | zeroDivisionError : Outcome
deriving DecidableEq, Repr

/-- Observable result of a modelled session. -/
structure SessionResult where
  events : List Event
  outcome : Outcome
deriving DecidableEq, Repr

/-- Model of `run_quiz` from the point after the optional question shuffle:
`qs` is the (post-shuffle) question sequence, `limit` the optional
truncation, and `inputs` the script of lines available on standard input.
After a completed loop the final score line is printed and then
`correct/total` is computed, which raises `ZeroDivisionError` when `total`
is zero; otherwise the quotient (exact arithmetic here; the program uses
binary64) is compared with `0.7`. -/
def runQuiz (qs : List Question) (limit : Option Int) (inputs : List String) : SessionResult :=
  let qs1 := applyLimit qs limit
  let total := qs1.length
  match quizLoop total qs1 inputs 0 0 1 with
  | (evs, .closed) => ⟨evs, .inputClosed⟩
  | (evs, .indexErrorStop) => ⟨evs, .indexErrorStop⟩
  | (evs, .ranAll c) =>
    let evs1 := evs ++ [.finalScore c total]
    if total = 0 then ⟨evs1, .zeroDivisionError⟩
    else if (7 : ℚ) / 10 ≤ (c : ℚ) / (total : ℚ) then ⟨evs1 ++ [.passMsg], .completed⟩
    else ⟨evs1 ++ [.failMsg], .completed⟩

/-- The canonical two-question document of the parser round-trip property. -/
def c3doc : String :=
  "1. What is S3? (Choose one.)\n- A. Storage\n- B. Compute\nCorrect Answer: A\n2. Pick two. (Choose two.)\n- A. X\n- B. Y\n- C. Z\nCorrect Answer: AC"

/-- A question block with choices but no `Correct Answer` line. -/
def c1doc : String :=
  "1. Broken question\n- A. alpha\n- B. beta"

/-- A question block with a duplicated choice letter. -/
def c8doc : String :=
  "1. Duplicate letters\n- A. first\n- A. second\nCorrect Answer: A"

/-- An input on which the sanitizer is not idempotent: removing the inner
escaped fragment `&lt;a&gt;` glues `&lt;` and `&gt;` together into a new
fragment that only a second pass removes. -/
def c2cex : List Char :=
  "&lt;&lt;a&gt;&gt;".toList

/-- A concrete well-formed single-select question. -/
def qA : Question :=
  ⟨1, "first".toList, [('A', "x".toList), ('B', "y".toList)], ['A'], none⟩

/-- A second concrete well-formed single-select question. -/
def qB : Question :=
  ⟨2, "second".toList, [('A', "x".toList), ('B', "y".toList)], ['B'], none⟩

/-- A concrete multi-select question with `chooseN = 2` and four choices. -/
def qMulti : Question :=
  ⟨3, "multi".toList,
    [('A', "w".toList), ('B', "x".toList), ('C', "y".toList), ('D', "z".toList)],
    ['A', 'C'], some 2⟩

/-- A concrete question whose `chooseN = 2` differs from the size of its
correct-letter set. -/
def qMismatch : Question :=
  ⟨4, "mismatch".toList, [('A', "w".toList), ('B', "x".toList)], ['A'], some 2⟩

/-- A concrete question with choices, an annotated `chooseN = 2`, and no
correct letters. -/
def qNoCorrectMulti : Question :=
  ⟨5, "nc".toList, [('A', "w".toList), ('B', "x".toList)], [], some 2⟩

/-- A concrete single-select question with choices and no correct letters. -/
def qSingleNoCorrect : Question :=
  ⟨6, "snc".toList, [('A', "w".toList), ('B', "x".toList)], [], none⟩

/-- The question that `c8doc` parses to: the duplicated choice letter is
kept twice, in document order. -/
def q8dup : Question :=
  ⟨1, "Duplicate letters".toList,
    [('A', "first".toList), ('A', "second".toList)], ['A'], some 1⟩

/-- Invariant of collapsed text: no two adjacent whitespace characters. -/
def NoAdjWs (l : List Char) : Prop :=
  List.Chain' (fun a b => ¬(pySpace a = true ∧ pySpace b = true)) l

/-- Invariant of collapsed text: every whitespace character is a plain
space. -/
def AllBlank (l : List Char) : Prop :=
  ∀ c ∈ l, pySpace c = true → c = ' '

/-- C3: parsing the canonical two-question document yields exactly two
questions in document order; the first with `chooseN = 1`,
`correctLetters = [A]` and two choices, the second with `chooseN = 2`,
`correctLetters = [A, C]` and three choices. -/
theorem c3_canonical_parse :
    (parse_markdown_exam_text c3doc).map
        (fun q => (q.number, q.choose_n, q.correct_letters, q.choices.length)) =
      [(1, some 1, ['A'], 2), (2, some 2, ['A', 'C'], 3)] := by
  decide

/-- C2 counterexample: the sanitizer is not idempotent.  On
`&lt;&lt;a&gt;&gt;` the first pass removes only the inner `&lt;a&gt;`,
leaving `&lt;&gt;`, which a second pass removes entirely. -/
theorem c2_not_idempotent :
    clean_question_text (clean_question_text c2cex) ≠ clean_question_text c2cex := by
  decide

/-- C1 counterexample: a question with two choices and no `Correct Answer`
line is emitted with empty `correctLetters`, but submitting the valid
letter `A` crashes the session with `IndexError`
(`q.correct_letters[0]` on an empty list), so the session does fail on it
rather than scoring the submission incorrect. -/
theorem c1_crash_on_empty_correct :
    (parse_markdown_exam_text c1doc).map
        (fun q => (q.correct_letters, q.choices.length)) = [([], 2)]
    ∧ (runQuiz (parse_markdown_exam_text c1doc) none ["A"]).outcome = .indexErrorStop := by
  decide

/-- C7 counterexample: with `limit = -1` over two questions the session
presents the single question `qA` (Python slice `questions[:-1]`), which is
not a prefix of length `min(limit, length) = min(-1, 2)`. -/
theorem c7_negative_limit_cex :
    applyLimit [qA, qB] (some (-1)) = [qA] ∧ ((1 : Int) ≠ min (-1) 2) := by
  decide

theorem collapse_head_of_nonspace (c : Char) (cs : List Char) (h : pySpace c = false) :
    (collapse (c :: cs)).head? = some c := by
  cases cs with
  | nil => simp [collapse, h]
  | cons c2 cs2 => simp [collapse, h]

theorem collapse_chain : ∀ l : List Char, NoAdjWs (collapse l) := by
  intro l
  induction l with
  | nil => simp [collapse, NoAdjWs]
  | cons c cs ih =>
    cases cs with
    | nil =>
      by_cases h : pySpace c = true <;> simp [collapse, NoAdjWs, h]
    | cons c2 cs2 =>
      by_cases h1 : pySpace c = true <;> by_cases h2 : pySpace c2 = true
      · simpa [collapse, h1, h2] using ih
      · have hh := collapse_head_of_nonspace c2 cs2 (by simp [h2])
        have hcol : collapse (c :: c2 :: cs2) = ' ' :: collapse (c2 :: cs2) := by
          simp [collapse, h1, h2]
        rw [NoAdjWs] at ih ⊢
        rw [hcol, List.chain'_cons']
        refine ⟨?_, ih⟩
        intro y hy
        rw [hh] at hy
        simp only [Option.mem_def, Option.some.injEq] at hy
        subst hy
        simp [h2]
      · have hcol : collapse (c :: c2 :: cs2) = c :: collapse (c2 :: cs2) := by
          simp [collapse, h1, h2]
        rw [NoAdjWs] at ih ⊢
        rw [hcol, List.chain'_cons']
        refine ⟨?_, ih⟩
        intro y _
        simp [h1]
      · have hcol : collapse (c :: c2 :: cs2) = c :: collapse (c2 :: cs2) := by
          simp [collapse, h1, h2]
        rw [NoAdjWs] at ih ⊢
        rw [hcol, List.chain'_cons']
        refine ⟨?_, ih⟩
        intro y _
        simp [h1]

theorem collapse_blank : ∀ l : List Char, AllBlank (collapse l) := by
  intro l
  induction l with
  | nil => intro x hx; simp [collapse] at hx
  | cons c cs ih =>
    cases cs with
    | nil =>
      intro x hx hsp
      by_cases h : pySpace c = true <;> simp [collapse, h] at hx <;> subst hx
      · rfl
      · exact absurd hsp (by simp [h])
    | cons c2 cs2 =>
      intro x hx hsp
      by_cases h1 : pySpace c = true <;> by_cases h2 : pySpace c2 = true
      · exact ih x (by simpa [collapse, h1, h2] using hx) hsp
      · have hcol : collapse (c :: c2 :: cs2) = ' ' :: collapse (c2 :: cs2) := by
          simp [collapse, h1, h2]
        rw [hcol, List.mem_cons] at hx
        rcases hx with rfl | hx
        · rfl
        · exact ih x hx hsp
      · have hcol : collapse (c :: c2 :: cs2) = c :: collapse (c2 :: cs2) := by
          simp [collapse, h1, h2]
        rw [hcol, List.mem_cons] at hx
        rcases hx with rfl | hx
        · exact absurd hsp (by simp [h1])
        · exact ih x hx hsp
      · have hcol : collapse (c :: c2 :: cs2) = c :: collapse (c2 :: cs2) := by
          simp [collapse, h1, h2]
        rw [hcol, List.mem_cons] at hx
        rcases hx with rfl | hx
        · exact absurd hsp (by simp [h1])
        · exact ih x hx hsp

theorem collapse_eq_self : ∀ l : List Char, NoAdjWs l → AllBlank l → collapse l = l := by
  intro l
  induction l with
  | nil => intro _ _; rfl
  | cons c cs ih =>
    cases cs with
    | nil =>
      intro _ hb
      by_cases h : pySpace c = true
      · have : c = ' ' := hb c (List.mem_cons_self c []) h
        simp [collapse, h, this]
      · simp [collapse, h]
    | cons c2 cs2 =>
      intro hc hb
      have hR := (List.chain'_cons.mp hc).left
      have htl : NoAdjWs (c2 :: cs2) := (List.chain'_cons.mp hc).right
      have hbt : AllBlank (c2 :: cs2) := fun x hx hs => hb x (List.mem_cons_of_mem c hx) hs
      have hand : (pySpace c && pySpace c2) = false := by
        by_contra hco
        simp only [Bool.not_eq_false, Bool.and_eq_true] at hco
        exact hR hco
      rw [show collapse (c :: c2 :: cs2) =
            (if pySpace c then ' ' else c) :: collapse (c2 :: cs2) by
          simp [collapse, hand]]
      rw [ih htl hbt]
      by_cases h : pySpace c = true
      · rw [if_pos h, hb c (List.mem_cons_self c _) h]
      · rw [if_neg h]

theorem dropWhile_cons_of_eq_self (c : Char) (cs : List Char)
    (h : List.dropWhile pySpace (c :: cs) = c :: cs) : pySpace c = false := by
  by_contra hb
  simp only [Bool.not_eq_false] at hb
  rw [List.dropWhile_cons, if_pos hb] at h
  have := (List.dropWhile_suffix (l := cs) pySpace).length_le
  rw [h] at this
  simp at this

theorem stripEnd_of_dropWhile_eq (l : List Char) (h : List.dropWhile pySpace l = l) :
    List.dropWhile pySpace (stripEnd l) = stripEnd l := by
  obtain ⟨t, ht⟩ := List.dropWhile_suffix (l := l.reverse) pySpace
  have hl : (stripEnd l) ++ t.reverse = l := by
    have := congrArg List.reverse ht
    simpa [stripEnd] using this
  cases hs : stripEnd l with
  | nil => rfl
  | cons c w =>
    have hcw : l = c :: (w ++ t.reverse) := by
      rw [← hl, hs]; simp
    have hc : pySpace c = false := dropWhile_cons_of_eq_self c (w ++ t.reverse) (by rw [← hcw, h, hcw])
    rw [List.dropWhile_cons, if_neg (by simp [hc])]

theorem stripEnd_idem (l : List Char) : stripEnd (stripEnd l) = stripEnd l := by
  unfold stripEnd
  rw [List.reverse_reverse, List.dropWhile_idempotent]

theorem stripL_idem (l : List Char) : stripL (stripL l) = stripL l := by
  unfold stripL
  have h1 : List.dropWhile pySpace (List.dropWhile pySpace l) = List.dropWhile pySpace l :=
    List.dropWhile_idempotent _ _
  rw [stripEnd_of_dropWhile_eq _ h1, stripEnd_idem]

theorem noAdjWs_of_suffix {l1 l : List Char} (h : NoAdjWs l) (hs : l1 <:+ l) : NoAdjWs l1 :=
  List.Chain'.suffix h hs

theorem noAdjWs_of_reverse {l : List Char} (h : NoAdjWs l) : NoAdjWs l.reverse := by
  rw [NoAdjWs, List.chain'_reverse]
  exact h.imp (fun a b hab => fun hp => hab ⟨hp.2, hp.1⟩)

theorem allBlank_of_suffix {l1 l : List Char} (h : AllBlank l) (hs : l1 <:+ l) : AllBlank l1 :=
  fun c hc hsp => h c (hs.sublist.mem hc) hsp

theorem allBlank_of_reverse {l : List Char} (h : AllBlank l) : AllBlank l.reverse :=
  fun c hc hsp => h c (List.mem_reverse.mp hc) hsp

theorem noAdjWs_of_stripL {l : List Char} (h : NoAdjWs l) : NoAdjWs (stripL l) := by
  unfold stripL stripEnd
  exact noAdjWs_of_reverse (noAdjWs_of_suffix
    (noAdjWs_of_reverse (noAdjWs_of_suffix h (List.dropWhile_suffix _)))
    (List.dropWhile_suffix _))

theorem allBlank_of_stripL {l : List Char} (h : AllBlank l) : AllBlank (stripL l) := by
  unfold stripL stripEnd
  exact allBlank_of_reverse (allBlank_of_suffix
    (allBlank_of_reverse (allBlank_of_suffix h (List.dropWhile_suffix _)))
    (List.dropWhile_suffix _))

theorem normWs_idem (l : List Char) : normWs (normWs l) = normWs l := by
  have h3 : collapse (normWs l) = normWs l :=
    collapse_eq_self _ (noAdjWs_of_stripL (collapse_chain l)) (allBlank_of_stripL (collapse_blank l))
  show stripL (collapse (normWs l)) = normWs l
  rw [h3]
  show stripL (stripL (collapse l)) = normWs l
  rw [stripL_idem]
  rfl

theorem subF_eq_self (m : List Char → Option (List Char)) :
    ∀ (f : Nat) (l : List Char), (∀ l2, l2 <:+ l → m l2 = none) → subF m f l = l := by
  intro f
  induction f with
  | zero => intro l _; rfl
  | succ f ih =>
    intro l h
    cases l with
    | nil => rfl
    | cons c cs =>
      have hm : m (c :: cs) = none := h _ (List.suffix_refl _)
      simp only [subF, hm]
      exact congrArg (List.cons c) (ih cs (fun l2 hs => h l2 (hs.trans (List.suffix_cons c cs))))

theorem ciEat_append_isSome (p1 p2 l : List Char)
    (h : (ciEat (p1 ++ p2) l).isSome = true) : (ciEat p1 l).isSome = true := by
  induction p1 generalizing l with
  | nil => rfl
  | cons p ps ih =>
    cases l with
    | nil => simp [ciEat] at h
    | cons c cs =>
      by_cases hc : c.toLower = p
      · simp only [List.cons_append, ciEat, if_pos hc] at h ⊢
        exact ih cs h
      · simp [ciEat, hc] at h

theorem eatSeq_isSome_ciEat (p : List Char) (hlow : ∀ c ∈ p, c.toLower = c) :
    ∀ l, (eatSeq p l).isSome = true → (ciEat p l).isSome = true := by
  induction p with
  | nil => intro l _; rfl
  | cons p ps ih =>
    intro l h
    cases l with
    | nil => simp [eatSeq] at h
    | cons c cs =>
      by_cases hc : c = p
      · have hl : c.toLower = p := by rw [← hc]; exact hlow c (hc ▸ List.mem_cons_self p ps)
        simp only [eatSeq, if_pos hc] at h
        simp only [ciEat, if_pos hl]
        exact ih (fun x hx => hlow x (List.mem_cons_of_mem _ hx)) cs h
      · simp [eatSeq, hc] at h

theorem hasSubCI_eq_false (p : List Char) :
    ∀ l, hasSubCI p l = false → ∀ l2, l2 <:+ l → (ciEat p l2).isSome = false := by
  intro l
  induction l with
  | nil =>
    intro h l2 hs
    rw [List.suffix_nil.mp hs]
    simpa [hasSubCI] using h
  | cons c cs ih =>
    intro h l2 hs
    rw [hasSubCI, Bool.or_eq_false_iff] at h
    rcases List.suffix_cons_iff.mp hs with rfl | hs2
    · exact h.1
    · exact ih h.2 l2 hs2

theorem matchDetEntAt_of_no_lt (l2 : List Char) (h : (ciEat ltPat l2).isSome = false) :
    matchDetEntAt l2 = none := by
  unfold matchDetEntAt
  cases he : ciEat entOpenPat l2 with
  | none => rfl
  | some r =>
    exfalso
    have h1 : (ciEat (ltPat ++ detailsPat) l2).isSome = true := by
      rw [show ltPat ++ detailsPat = entOpenPat by decide, he]; rfl
    have h2 := ciEat_append_isSome ltPat detailsPat l2 h1
    rw [h] at h2
    exact Bool.noConfusion h2

theorem matchAngEntAt_of_no_lt (l2 : List Char) (h : (ciEat ltPat l2).isSome = false) :
    matchAngEntAt l2 = none := by
  unfold matchAngEntAt
  cases he : eatSeq ltPat l2 with
  | none => rfl
  | some r =>
    exfalso
    have h1 : (eatSeq ltPat l2).isSome = true := by rw [he]; rfl
    have h2 := eatSeq_isSome_ciEat ltPat (by decide) l2 h1
    rw [h] at h2
    exact Bool.noConfusion h2

theorem matchHtmlDetAt_of_no_langle (l2 : List Char) (h : ('<') ∉ l2) :
    matchHtmlDetAt l2 = none := by
  cases l2 with
  | nil => rfl
  | cons c cs =>
    have hc : c ≠ '<' := fun he => h (by rw [← he]; exact List.mem_cons_self c cs)
    rw [matchHtmlDetAt.eq_def]
    split
    · next rest heq =>
        exfalso
        injection heq with heq1 _
        exact hc heq1
    · rfl

theorem matchTagAt_of_no_langle (l2 : List Char) (h : ('<') ∉ l2) :
    matchTagAt l2 = none := by
  cases l2 with
  | nil => rfl
  | cons c cs =>
    have hc : c ≠ '<' := fun he => h (by rw [← he]; exact List.mem_cons_self c cs)
    rw [matchTagAt.eq_def]
    split
    · next c2 cs2 heq =>
        exfalso
        injection heq with heq1 _
        exact hc heq1
    · rfl

/-- C2 amended: the sanitizer is idempotent on every input whose sanitized
form contains no case-insensitive occurrence of `&lt;` and no literal `<`
character; the counterexample shows the restriction is needed, since removal
can splice such fragments together. -/
theorem c2_sanitize_conditional_idem (x : List Char)
    (h1 : hasSubCI ltPat (clean_question_text x) = false)
    (h2 : ('<') ∉ clean_question_text x) :
    clean_question_text (clean_question_text x) = clean_question_text x := by
  set y := clean_question_text x with hy
  by_cases hye : y.isEmpty
  · unfold clean_question_text
    rw [if_pos hye]
  · have hdet : subRe matchDetEntAt y = y :=
      subF_eq_self _ _ _ (fun l2 hs => matchDetEntAt_of_no_lt l2 (hasSubCI_eq_false _ y h1 l2 hs))
    have hang : subRe matchAngEntAt y = y :=
      subF_eq_self _ _ _ (fun l2 hs => matchAngEntAt_of_no_lt l2 (hasSubCI_eq_false _ y h1 l2 hs))
    have hhtml : subRe matchHtmlDetAt y = y :=
      subF_eq_self _ _ _ (fun l2 hs => matchHtmlDetAt_of_no_langle l2 (fun hm => h2 (hs.sublist.mem hm)))
    have htag : subRe matchTagAt y = y :=
      subF_eq_self _ _ _ (fun l2 hs => matchTagAt_of_no_langle l2 (fun hm => h2 (hs.sublist.mem hm)))
    have hclean : clean_question_text y = normWs y := by
      unfold clean_question_text
      rw [if_neg hye, hdet, hang, hhtml, htag]
    by_cases hxe : x.isEmpty
    · exact absurd (by rw [hy]; unfold clean_question_text; rw [if_pos hxe]; exact hxe) hye
    · have hyw : y =
          normWs (subRe matchTagAt (subRe matchHtmlDetAt (subRe matchAngEntAt (subRe matchDetEntAt x)))) := by
        rw [hy]
        unfold clean_question_text
        rw [if_neg hxe]
      rw [hclean, hyw, normWs_idem]

/-- C2 amended, checked on a concrete input: sanitizing a string with tag
noise and doubled spaces satisfies the side conditions, and a second pass
changes nothing. -/
theorem c2_sanitize_conditional_idem_check :
    (hasSubCI ltPat (clean_question_text ("Hello  <b>world</b>".toList)) = false
      ∧ ('<') ∉ clean_question_text ("Hello  <b>world</b>".toList))
    ∧ clean_question_text (clean_question_text ("Hello  <b>world</b>".toList)) =
        clean_question_text ("Hello  <b>world</b>".toList) :=
  ⟨⟨by decide, by decide⟩,
    c2_sanitize_conditional_idem ("Hello  <b>world</b>".toList) (by decide) (by decide)⟩

theorem toUpper_of_isUpper (c : Char) (h : c.isUpper = true) : c.toUpper = c := by
  unfold Char.toUpper
  show (if c.toNat ≥ 97 ∧ c.toNat ≤ 122 then Char.ofNat (c.toNat - 32) else c) = c
  rw [if_neg]
  intro hl
  unfold Char.isUpper at h
  simp only [Bool.and_eq_true, decide_eq_true_eq] at h
  have h2 : c.toNat ≤ 90 := h.2
  omega

theorem matchChoiceLine_isUpper (l : List Char) (c : Char) (t : List Char)
    (h : matchChoiceLine l = some (c, t)) : c.isUpper = true := by
  rw [matchChoiceLine.eq_def] at h
  split at h
  · split at h
    · next c2 l2 _ =>
      split at h
      · next hup =>
        simp only [Option.some.injEq, Prod.mk.injEq] at h
        rw [← h.1]
        exact hup
      · exact Option.noConfusion h
    · exact Option.noConfusion h
  · exact Option.noConfusion h

theorem inferChooseN_choices (q : Question) : (inferChooseN q).choices = q.choices := by
  unfold inferChooseN
  split
  · rfl
  · split <;> rfl

theorem inferChooseN_correct (q : Question) :
    (inferChooseN q).correct_letters = q.correct_letters := by
  unfold inferChooseN
  split
  · rfl
  · split <;> rfl

theorem finalizeQ_choices (q : Question) : (finalizeQ q).choices = q.choices := by
  unfold finalizeQ
  simp [inferChooseN_choices]

theorem parseStep_question (cur : Option Question) (acc : List Question)
    (line : List Char) (nt : Nat × List Char) (h : matchQuestionLine line = some nt) :
    parseStep (cur, acc) line =
      (some { number := nt.1, text := stripL nt.2, choices := [],
              correct_letters := [], choose_n := searchChoose nt.2 },
       match cur with
       | some q => acc ++ [finalizeQ q]
       | none => acc) := by
  unfold parseStep
  rw [h]

theorem parseStep_noCur (acc : List Question) (line : List Char)
    (h : matchQuestionLine line = none) :
    parseStep (none, acc) line = (none, acc) := by
  unfold parseStep
  rw [h]

theorem parseStep_choice (q : Question) (acc : List Question) (line : List Char)
    (ct : Char × List Char) (h1 : matchQuestionLine line = none)
    (h2 : matchChoiceLine line = some ct) :
    parseStep (some q, acc) line =
      (some { q with choices := q.choices ++ [(ct.1.toUpper, stripL ct.2)] }, acc) := by
  unfold parseStep
  rw [h1, h2]

theorem parseStep_correctLine (q : Question) (acc : List Question) (line : List Char)
    (ls : List Char) (h1 : matchQuestionLine line = none)
    (h2 : matchChoiceLine line = none) (h3 : searchCorrect line = some ls) :
    parseStep (some q, acc) line =
      (some (inferChooseN { q with correct_letters := ls.map Char.toUpper }), acc) := by
  unfold parseStep
  rw [h1, h2, h3]

theorem parseStep_other (q : Question) (acc : List Question) (line : List Char)
    (h1 : matchQuestionLine line = none) (h2 : matchChoiceLine line = none)
    (h3 : searchCorrect line = none) :
    parseStep (some q, acc) line =
      (if line.isEmpty then (some q, acc)
       else if line.headD ' ' = '-' then (some q, acc)
       else if startsWithSeq ansPat (stripL line) then (some q, acc)
       else (some { q with text := q.text ++ ' ' :: stripL line }, acc)) := by
  unfold parseStep
  rw [h1, h2, h3]

theorem parseStep_upper (st : Option Question × List Question) (line : List Char)
    (hacc : ∀ q ∈ st.2, ∀ p ∈ q.choices, p.1.isUpper = true)
    (hcur : ∀ q, st.1 = some q → ∀ p ∈ q.choices, p.1.isUpper = true) :
    (∀ q ∈ (parseStep st line).2, ∀ p ∈ q.choices, p.1.isUpper = true)
    ∧ (∀ q, (parseStep st line).1 = some q → ∀ p ∈ q.choices, p.1.isUpper = true) := by
  obtain ⟨cur, acc⟩ := st
  simp only at hacc hcur
  cases hql : matchQuestionLine line with
  | some nt =>
    rw [parseStep_question cur acc line nt hql]
    constructor
    · intro q hq
      cases cur with
      | none => exact hacc q hq
      | some q0 =>
        rcases List.mem_append.mp hq with hmem | hmem
        · exact hacc q hmem
        · have : q = finalizeQ q0 := by simpa using hmem
          subst this
          rw [finalizeQ_choices]
          exact hcur q0 rfl
    · intro q hq p hp
      have : q = { number := nt.1, text := stripL nt.2, choices := [],
                   correct_letters := [], choose_n := searchChoose nt.2 } :=
        (Option.some.injEq _ _).mp hq.symm
      subst this
      simp at hp
  | none =>
    cases cur with
    | none =>
      rw [parseStep_noCur acc line hql]
      exact ⟨hacc, fun q hq => absurd hq (by simp)⟩
    | some q0 =>
      cases hcl : matchChoiceLine line with
      | some ct =>
        rw [parseStep_choice q0 acc line ct hql hcl]
        refine ⟨hacc, ?_⟩
        intro q hq p hp
        have hq1 : q = { q0 with choices := q0.choices ++ [(ct.1.toUpper, stripL ct.2)] } :=
          (Option.some.injEq _ _).mp hq.symm
        subst hq1
        simp only [List.mem_append] at hp
        rcases hp with hp | hp
        · exact hcur q0 rfl p hp
        · have hp2 : p = (ct.1.toUpper, stripL ct.2) := by simpa using hp
          subst hp2
          have hu := matchChoiceLine_isUpper line ct.1 ct.2 (by rw [hcl])
          simp only
          rw [toUpper_of_isUpper ct.1 hu]
          exact hu
      | none =>
        cases hcr : searchCorrect line with
        | some ls =>
          rw [parseStep_correctLine q0 acc line ls hql hcl hcr]
          refine ⟨hacc, ?_⟩
          intro q hq p hp
          have hq1 : q = inferChooseN { q0 with correct_letters := ls.map Char.toUpper } :=
            (Option.some.injEq _ _).mp hq.symm
          subst hq1
          rw [inferChooseN_choices] at hp
          exact hcur q0 rfl p hp
        | none =>
          rw [parseStep_other q0 acc line hql hcl hcr]
          split
          · exact ⟨hacc, fun q hq => by have h := (Option.some.injEq _ _).mp hq; subst h; exact hcur q0 rfl⟩
          · split
            · exact ⟨hacc, fun q hq => by have h := (Option.some.injEq _ _).mp hq; subst h; exact hcur q0 rfl⟩
            · split
              · exact ⟨hacc, fun q hq => by have h := (Option.some.injEq _ _).mp hq; subst h; exact hcur q0 rfl⟩
              · refine ⟨hacc, ?_⟩
                intro q hq p hp
                have hq1 : q = { q0 with text := q0.text ++ ' ' :: stripL line } :=
                  (Option.some.injEq _ _).mp hq.symm
                subst hq1
                exact hcur q0 rfl p hp

theorem parseFold_upper :
    ∀ (lines : List (List Char)) (st : Option Question × List Question),
      (∀ q ∈ st.2, ∀ p ∈ q.choices, p.1.isUpper = true) →
      (∀ q, st.1 = some q → ∀ p ∈ q.choices, p.1.isUpper = true) →
      (∀ q ∈ (lines.foldl parseStep st).2, ∀ p ∈ q.choices, p.1.isUpper = true)
      ∧ (∀ q, (lines.foldl parseStep st).1 = some q → ∀ p ∈ q.choices, p.1.isUpper = true) := by
  intro lines
  induction lines with
  | nil => intro st h1 h2; exact ⟨h1, h2⟩
  | cons line rest ih =>
    intro st h1 h2
    rw [List.foldl_cons]
    have hs := parseStep_upper st line h1 h2
    exact ih _ hs.1 hs.2

theorem parseLines_upper (lines : List (List Char)) (cur : Option Question)
    (acc : List Question)
    (hacc : ∀ q ∈ acc, ∀ p ∈ q.choices, p.1.isUpper = true)
    (hcur : ∀ q, cur = some q → ∀ p ∈ q.choices, p.1.isUpper = true) :
    ∀ q ∈ parseLines lines cur acc, ∀ p ∈ q.choices, p.1.isUpper = true := by
  intro q hq p hp
  have hfold := parseFold_upper lines (cur, acc) hacc hcur
  unfold parseLines parseEnd at hq
  have hq2 := (List.mem_filter.mp hq).1
  cases hst : (lines.foldl parseStep (cur, acc)).1 with
  | none =>
    rw [hst] at hq2
    exact hfold.1 q hq2 p hp
  | some q0 =>
    rw [hst] at hq2
    simp only at hq2
    split at hq2
    · exact hfold.1 q hq2 p hp
    · rcases List.mem_append.mp hq2 with hmem | hmem
      · exact hfold.1 q hmem p hp
      · have : q = finalizeQ q0 := by simpa using hmem
        subst this
        rw [finalizeQ_choices] at hp
        exact hfold.2 q0 hst p hp

theorem inferChooseN_eq_of_some (q : Question) (n : Nat) (h : q.choose_n = some n) :
    inferChooseN q = q := by
  unfold inferChooseN
  rw [h]

theorem inferChooseN_eq_of_empty (q : Question) (h : q.correct_letters = []) :
    inferChooseN q = q := by
  unfold inferChooseN
  cases hc : q.choose_n with
  | some n => rfl
  | none => rw [h]; rfl

theorem multiOf_of_some (q : Question) (n : Nat) (h : q.choose_n = some n) (h2 : 2 ≤ n) :
    multiOf q = true := by
  unfold multiOf
  rw [h]
  have : (1 < n) = True := by simp; omega
  simp [this]

theorem expectedN_of_some (q : Question) (n : Nat) (h : q.choose_n = some n) (h1 : n ≠ 0) :
    expectedN q = n := by
  unfold expectedN
  rw [h]
  cases n with
  | zero => exact absurd rfl h1
  | succ k => rfl

theorem multiOf_false_small (q : Question) (h : q.correct_letters = [])
    (hc : q.choose_n = none ∨ q.choose_n = some 0 ∨ q.choose_n = some 1) :
    multiOf q = false := by
  unfold multiOf
  rw [h]
  rcases hc with hc | hc | hc <;> rw [hc] <;> simp

theorem setEqB_dedup_length (a b : List Char) (h : setEqB a b = true) :
    a.dedup.length = b.dedup.length := by
  unfold setEqB at h
  rw [Bool.and_eq_true] at h
  have hft : a.toFinset = b.toFinset := by
    ext c
    simp only [List.mem_toFinset]
    constructor
    · intro hc
      exact List.elem_iff.mp (List.all_eq_true.mp h.1 c hc)
    · intro hc
      exact List.elem_iff.mp (List.all_eq_true.mp h.2 c hc)
  have hcard : a.toFinset.card = b.toFinset.card := by rw [hft]
  exact hcard

theorem attemptAnswer_cons (q : Question) (raw : String) (l0 : Char) (ls : List Char)
    (hq : inferChooseN q = q) (hE : extractLetters raw = l0 :: ls) :
    attemptAnswer q raw =
      (if !(l0 :: ls).all (fun c => (q.choices.map Prod.fst).contains c) then .retryInvalid
       else if multiOf q then
         if (l0 :: ls).dedup.length ≠ expectedN q then .retryCount (expectedN q)
         else .answered (setEqB (l0 :: ls) q.correct_letters)
       else
         match q.correct_letters with
         | [] => .indexErrorStop
         | c :: _ => .answered (l0 = c)) := by
  unfold attemptAnswer
  rw [hq, hE]

theorem attemptAnswer_nil (q : Question) (raw : String)
    (hq : inferChooseN q = q) (hE : extractLetters raw = []) :
    attemptAnswer q raw = .retryEmpty := by
  unfold attemptAnswer
  rw [hq, hE]

theorem attemptAnswer_multi_eq (q : Question) (raw : String) (l0 : Char) (ls : List Char)
    (hq : inferChooseN q = q) (hE : extractLetters raw = l0 :: ls)
    (hval : (l0 :: ls).all (fun c => (q.choices.map Prod.fst).contains c) = true)
    (hmulti : multiOf q = true) :
    attemptAnswer q raw =
      (if (l0 :: ls).dedup.length ≠ expectedN q then .retryCount (expectedN q)
       else .answered (setEqB (l0 :: ls) q.correct_letters)) := by
  rw [attemptAnswer_cons q raw l0 ls hq hE, hval, hmulti]
  simp

theorem attemptAnswer_multi_ne_true (q : Question) (n : Nat) (raw : String)
    (hn : q.choose_n = some n) (h2 : 2 ≤ n)
    (hcard : q.correct_letters.dedup.length ≠ n) :
    attemptAnswer q raw ≠ .answered true := by
  intro hcontra
  have hq := inferChooseN_eq_of_some q n hn
  cases hE : extractLetters raw with
  | nil =>
    rw [attemptAnswer_nil q raw hq hE] at hcontra
    exact StepResult.noConfusion hcontra
  | cons l0 ls =>
    rw [attemptAnswer_cons q raw l0 ls hq hE] at hcontra
    split at hcontra
    · exact StepResult.noConfusion hcontra
    · rw [multiOf_of_some q n hn h2] at hcontra
      rw [if_pos rfl] at hcontra
      split at hcontra
      · exact StepResult.noConfusion hcontra
      · next hlen =>
        have hlen2 : (l0 :: ls).dedup.length = expectedN q := not_ne_iff.mp hlen
        have hset : setEqB (l0 :: ls) q.correct_letters = true := by
          injection hcontra
        have hdl := setEqB_dedup_length _ _ hset
        rw [expectedN_of_some q n hn (by omega)] at hlen2
        exact hcard (hdl.symm.trans hlen2)

/-- C8 counterexample: choice letters are not always unique within an
emitted question — a block with two `- A.` lines yields the letter `A`
twice. -/
theorem c8_unique_letters_cex :
    ¬ ∀ q ∈ parse_markdown_exam_text c8doc, (q.choices.map Prod.fst).Nodup := by
  decide

/-- C8 amended: every choice letter of every emitted question is uppercase
and letters are kept in document order, but uniqueness within a question is
not enforced: a duplicated choice-letter line is kept twice, in document
order, as the concrete document `c8doc` shows. -/
theorem c8_letters_upper :
    (∀ (s : String), ∀ q ∈ parse_markdown_exam_text s, ∀ p ∈ q.choices, p.1.isUpper = true)
    ∧ (parse_markdown_exam_text c8doc).map (fun q => q.choices.map Prod.fst) = [['A', 'A']] := by
  constructor
  · intro s q hq p hp
    exact parseLines_upper (splitLines s.toList) none [] (by simp)
      (fun q h => absurd h (by simp)) q hq p hp
  · decide

/-- C8 amended, checked concretely: the duplicated-letter question is parsed
as `q8dup`, and its first choice letter is uppercase by the theorem. -/
theorem c8_letters_upper_check :
    (q8dup ∈ parse_markdown_exam_text c8doc ∧ ('A', "first".toList) ∈ q8dup.choices)
    ∧ (('A', "first".toList) : Char × List Char).1.isUpper = true :=
  ⟨⟨by decide, by decide⟩,
    c8_letters_upper.1 c8doc q8dup (by decide) (('A', "first".toList)) (by decide)⟩

/-- C10: for a question whose annotated `chooseN` is at least 2 and differs
from the number of distinct correct letters, no submission is ever scored
correct: the count gate only accepts `chooseN` distinct letters, while
correctness demands set equality with a set of different cardinality. -/
theorem c10_mismatched_chooseN_never_correct (q : Question) (n : Nat) (raw : String)
    (hn : q.choose_n = some n) (h2 : 2 ≤ n)
    (hcard : q.correct_letters.dedup.length ≠ n) :
    attemptAnswer q raw ≠ .answered true :=
  attemptAnswer_multi_ne_true q n raw hn h2 hcard

/-- C10 checked concretely on `qMismatch` (`chooseN = 2`, one distinct
correct letter) with the accepted two-letter submission `AB`. -/
theorem c10_mismatched_chooseN_check :
    (qMismatch.choose_n = some 2 ∧ 2 ≤ 2 ∧ qMismatch.correct_letters.dedup.length ≠ 2)
    ∧ attemptAnswer qMismatch "AB" ≠ .answered true :=
  ⟨⟨rfl, by decide, by decide⟩,
    c10_mismatched_chooseN_never_correct qMismatch 2 ("AB") rfl (by decide) (by decide)⟩

/-- C4: for a question with `chooseN = 2`, a submission whose distinct valid
letters number 1 or 3 is rejected with a count retry, and a submission with
exactly 2 distinct valid letters is accepted and scored, whatever the
order, case or separators its letters came from. -/
theorem c4_count_enforcement (q : Question) (raw : String) (h2 : q.choose_n = some 2)
    (hne : extractLetters raw ≠ [])
    (hval : (extractLetters raw).all (fun c => (q.choices.map Prod.fst).contains c) = true) :
    ((extractLetters raw).dedup.length = 1 ∨ (extractLetters raw).dedup.length = 3 →
      attemptAnswer q raw = .retryCount 2)
    ∧ ((extractLetters raw).dedup.length = 2 →
      attemptAnswer q raw = .answered (setEqB (extractLetters raw) q.correct_letters)) := by
  have hq := inferChooseN_eq_of_some q 2 h2
  cases hE : extractLetters raw with
  | nil => exact absurd hE hne
  | cons l0 ls =>
    rw [hE] at hval
    have heq := attemptAnswer_multi_eq q raw l0 ls hq hE hval
      (multiOf_of_some q 2 h2 (by omega))
    rw [expectedN_of_some q 2 h2 (by omega)] at heq
    constructor
    · intro hlen
      rw [heq, if_pos]
      rcases hlen with h | h <;> omega
    · intro hlen
      rw [heq, if_neg]
      omega

/-- C4 checked concretely on `qMulti` (choices A-D): the separator styles
`AC`, `A,C` and `a, c` are all accepted (and here scored correct), while a
1-letter and a 3-letter submission are rejected with the count message. -/
theorem c4_count_enforcement_check :
    (attemptAnswer qMulti "AC" = .answered true)
    ∧ (attemptAnswer qMulti "A,C" = .answered true)
    ∧ (attemptAnswer qMulti "a, c" = .answered true)
    ∧ (attemptAnswer qMulti "A" = .retryCount 2)
    ∧ (attemptAnswer qMulti "ABD" = .retryCount 2) :=
  ⟨by rw [(c4_count_enforcement qMulti ("AC") rfl (by decide) (by decide)).2 (by decide)]; decide,
   by rw [(c4_count_enforcement qMulti ("A,C") rfl (by decide) (by decide)).2 (by decide)]; decide,
   by rw [(c4_count_enforcement qMulti ("a, c") rfl (by decide) (by decide)).2 (by decide)]; decide,
   (c4_count_enforcement qMulti ("A") rfl (by decide) (by decide)).1 (Or.inl (by decide)),
   (c4_count_enforcement qMulti ("ABD") rfl (by decide) (by decide)).1 (Or.inr (by decide))⟩

/-- C1 amended: a question with choices and no `Correct Answer` line is
still emitted with empty `correctLetters`; in multi-select mode (annotated
`chooseN` at least 2) every accepted submission is scored incorrect, but in
single-select mode every valid submission raises `IndexError` instead of
being scored. -/
theorem c1_empty_correct_amended :
    ((parse_markdown_exam_text c1doc).map
        (fun q => (q.correct_letters, q.choices.length)) = [([], 2)])
    ∧ (∀ (q : Question) (n : Nat) (raw : String),
        q.correct_letters = [] → q.choose_n = some n → 2 ≤ n →
        attemptAnswer q raw ≠ .answered true)
    ∧ (∀ (q : Question) (raw : String),
        q.correct_letters = [] →
        (q.choose_n = none ∨ q.choose_n = some 0 ∨ q.choose_n = some 1) →
        extractLetters raw ≠ [] →
        (extractLetters raw).all (fun c => (q.choices.map Prod.fst).contains c) = true →
        attemptAnswer q raw = .indexErrorStop) := by
  refine ⟨by decide, ?_, ?_⟩
  · intro q n raw hcl hn h2
    refine attemptAnswer_multi_ne_true q n raw hn h2 ?_
    rw [hcl]
    simpa using by omega
  · intro q raw hcl hcn hne hval
    have hq := inferChooseN_eq_of_empty q hcl
    cases hE : extractLetters raw with
    | nil => exact absurd hE hne
    | cons l0 ls =>
      rw [hE] at hval
      rw [attemptAnswer_cons q raw l0 ls hq hE, hval, multiOf_false_small q hcl hcn, hcl]
      simp

/-- C1 amended, checked concretely: on `qNoCorrectMulti` (annotated
`chooseN = 2`, no correct letters) the accepted submission `AB` is not
scored correct, and on `qSingleNoCorrect` the valid submission `A` raises
`IndexError`. -/
theorem c1_empty_correct_check :
    (qNoCorrectMulti.correct_letters = []
      ∧ attemptAnswer qNoCorrectMulti "AB" ≠ .answered true)
    ∧ (qSingleNoCorrect.correct_letters = []
      ∧ attemptAnswer qSingleNoCorrect "A" = .indexErrorStop) :=
  ⟨⟨rfl, c1_empty_correct_amended.2.1 qNoCorrectMulti 2 ("AB") rfl rfl (by decide)⟩,
   ⟨rfl, c1_empty_correct_amended.2.2 qSingleNoCorrect ("A") rfl (Or.inl rfl)
      (by decide) (by decide)⟩⟩

theorem quizLoop_nil (total : Nat) (inputs : List String) (c r idx : Nat) :
    quizLoop total [] inputs c r idx = ([], .ranAll c) := rfl

theorem quizLoop_cons_closed (total : Nat) (q : Question) (qs : List Question)
    (inputs : List String) (c r idx : Nat) (rest : List String)
    (h : askLoop q inputs = (.closed, rest)) :
    quizLoop total (q :: qs) inputs c r idx =
      ([.header idx total, .inputClosed], .closed) := by
  unfold quizLoop
  rw [h]

theorem quizLoop_cons_idxErr (total : Nat) (q : Question) (qs : List Question)
    (inputs : List String) (c r idx : Nat) (rest : List String)
    (h : askLoop q inputs = (.indexErrorStop, rest)) :
    quizLoop total (q :: qs) inputs c r idx =
      ([.header idx total], .indexErrorStop) := by
  unfold quizLoop
  rw [h]

theorem quizLoop_cons_answered (total : Nat) (q : Question) (qs : List Question)
    (inputs : List String) (c r idx : Nat) (b : Bool) (rest : List String)
    (h : askLoop q inputs = (.answered b, rest)) :
    quizLoop total (q :: qs) inputs c r idx =
      (.header idx total ::
        .score (if b then c + 1 else c) (r + 1) ::
        (quizLoop total qs rest (if b then c + 1 else c) (r + 1) (idx + 1)).1,
       (quizLoop total qs rest (if b then c + 1 else c) (r + 1) (idx + 1)).2) := by
  conv_lhs => rw [quizLoop]
  rw [h]

theorem quizLoop_cons_closed_fst (total : Nat) (q : Question) (qs : List Question)
    (inputs : List String) (c r idx : Nat) (rest : List String)
    (h : askLoop q inputs = (.closed, rest)) :
    (quizLoop total (q :: qs) inputs c r idx).1 = [.header idx total, .inputClosed] := by
  rw [quizLoop_cons_closed total q qs inputs c r idx rest h]

theorem quizLoop_cons_idxErr_fst (total : Nat) (q : Question) (qs : List Question)
    (inputs : List String) (c r idx : Nat) (rest : List String)
    (h : askLoop q inputs = (.indexErrorStop, rest)) :
    (quizLoop total (q :: qs) inputs c r idx).1 = [.header idx total] := by
  rw [quizLoop_cons_idxErr total q qs inputs c r idx rest h]

theorem quizLoop_cons_answered_fst (total : Nat) (q : Question) (qs : List Question)
    (inputs : List String) (c r idx : Nat) (b : Bool) (rest : List String)
    (h : askLoop q inputs = (.answered b, rest)) :
    (quizLoop total (q :: qs) inputs c r idx).1 =
      .header idx total ::
        .score (if b then c + 1 else c) (r + 1) ::
        (quizLoop total qs rest (if b then c + 1 else c) (r + 1) (idx + 1)).1 := by
  rw [quizLoop_cons_answered total q qs inputs c r idx b rest h]

theorem quizLoop_cons_answered_snd (total : Nat) (q : Question) (qs : List Question)
    (inputs : List String) (c r idx : Nat) (b : Bool) (rest : List String)
    (h : askLoop q inputs = (.answered b, rest)) :
    (quizLoop total (q :: qs) inputs c r idx).2 =
      (quizLoop total qs rest (if b then c + 1 else c) (r + 1) (idx + 1)).2 := by
  rw [quizLoop_cons_answered total q qs inputs c r idx b rest h]

theorem quizLoop_closed_shape (total : Nat) :
    ∀ (qs : List Question) (inputs : List String) (c r idx : Nat),
      (quizLoop total qs inputs c r idx).2 = .closed →
      (quizLoop total qs inputs c r idx).1.getLast? = some .inputClosed
      ∧ (∀ e ∈ (quizLoop total qs inputs c r idx).1,
          (∃ i t, e = .header i t) ∨ (∃ a b, e = .score a b) ∨ e = .inputClosed)
      ∧ (quizLoop total qs inputs c r idx).1.countP
          (fun e => match e with | .score _ _ => true | _ => false) < qs.length := by
  intro qs
  induction qs with
  | nil =>
    intro inputs c r idx h
    rw [quizLoop_nil] at h
    exact absurd h (by simp)
  | cons q qs ih =>
    intro inputs c r idx h
    rcases hask : askLoop q inputs with ⟨ex, rest⟩
    cases ex with
    | closed =>
      rw [quizLoop_cons_closed_fst total q qs inputs c r idx rest hask]
      refine ⟨by simp, ?_, ?_⟩
      · intro e he
        rcases List.mem_cons.mp he with he | he
        · exact Or.inl ⟨idx, total, he⟩
        · right; right; simpa using he
      · simp [List.countP_cons]
    | indexErrorStop =>
      rw [quizLoop_cons_idxErr total q qs inputs c r idx rest hask] at h
      exact absurd h (by simp)
    | answered b =>
      rw [quizLoop_cons_answered_snd total q qs inputs c r idx b rest hask] at h
      rw [quizLoop_cons_answered_fst total q qs inputs c r idx b rest hask]
      have htail := ih rest (if b then c + 1 else c) (r + 1) (idx + 1) h
      refine ⟨?_, ?_, ?_⟩
      · have hne : (quizLoop total qs rest (if b then c + 1 else c) (r + 1) (idx + 1)).1 ≠ [] := by
          intro hnil
          rw [hnil] at htail
          exact Option.noConfusion htail.1
        cases htl : (quizLoop total qs rest (if b then c + 1 else c) (r + 1) (idx + 1)).1 with
        | nil => exact absurd htl hne
        | cons e es =>
          rw [List.getLast?_cons_cons, List.getLast?_cons_cons]
          have h1 := htail.1
          rw [htl] at h1
          exact h1
      · intro e he
        rcases List.mem_cons.mp he with he | he
        · exact Or.inl ⟨idx, total, he⟩
        · rcases List.mem_cons.mp he with he | he
          · exact Or.inr (Or.inl ⟨_, _, he⟩)
          · exact htail.2.1 e he
      · simp only [List.countP_cons, List.length_cons]
        have := htail.2.2
        simp only [List.countP_cons] at this ⊢
        norm_num
        omega

theorem quizLoop_header_total (total : Nat) :
    ∀ (qs : List Question) (inputs : List String) (c r idx : Nat) (i t : Nat),
      Event.header i t ∈ (quizLoop total qs inputs c r idx).1 → t = total := by
  intro qs
  induction qs with
  | nil =>
    intro inputs c r idx i t h
    rw [quizLoop_nil] at h
    simp at h
  | cons q qs ih =>
    intro inputs c r idx i t h
    rcases hask : askLoop q inputs with ⟨ex, rest⟩
    cases ex with
    | closed =>
      rw [quizLoop_cons_closed_fst total q qs inputs c r idx rest hask] at h
      rcases List.mem_cons.mp h with h | h
      · injection h with _ h2
      · simp at h
    | indexErrorStop =>
      rw [quizLoop_cons_idxErr_fst total q qs inputs c r idx rest hask] at h
      rcases List.mem_cons.mp h with h | h
      · injection h with _ h2
      · simp at h
    | answered b =>
      rw [quizLoop_cons_answered_fst total q qs inputs c r idx b rest hask] at h
      rcases List.mem_cons.mp h with h | h
      · injection h with _ h2
      · rcases List.mem_cons.mp h with h | h
        · exact Event.noConfusion h
        · exact ih rest (if b then c + 1 else c) (r + 1) (idx + 1) i t h

theorem runQuiz_closed (qs : List Question) (limit : Option Int) (inputs : List String)
    (evs : List Event)
    (h : quizLoop (applyLimit qs limit).length (applyLimit qs limit) inputs 0 0 1 =
      (evs, .closed)) :
    runQuiz qs limit inputs = ⟨evs, .inputClosed⟩ := by
  simp only [runQuiz]
  rw [h]

theorem runQuiz_idxErr (qs : List Question) (limit : Option Int) (inputs : List String)
    (evs : List Event)
    (h : quizLoop (applyLimit qs limit).length (applyLimit qs limit) inputs 0 0 1 =
      (evs, .indexErrorStop)) :
    runQuiz qs limit inputs = ⟨evs, .indexErrorStop⟩ := by
  simp only [runQuiz]
  rw [h]

theorem runQuiz_done (qs : List Question) (limit : Option Int) (inputs : List String)
    (evs : List Event) (c : Nat)
    (h : quizLoop (applyLimit qs limit).length (applyLimit qs limit) inputs 0 0 1 =
      (evs, .ranAll c)) :
    runQuiz qs limit inputs =
      (if (applyLimit qs limit).length = 0 then
        ⟨evs ++ [.finalScore c (applyLimit qs limit).length], .zeroDivisionError⟩
       else if (7 : ℚ) / 10 ≤ (c : ℚ) / (((applyLimit qs limit).length : Nat) : ℚ) then
        ⟨evs ++ [.finalScore c (applyLimit qs limit).length] ++ [.passMsg], .completed⟩
       else ⟨evs ++ [.finalScore c (applyLimit qs limit).length] ++ [.failMsg], .completed⟩) := by
  simp only [runQuiz]
  rw [h]

/-- C9: when the effective question sequence is empty (empty input list or a
truncating limit such as 0), the loop never runs, the final score line
`0/0` is printed, and computing `correct/total` raises an unhandled
`ZeroDivisionError`: the division is not guarded against `total = 0`. -/
theorem c9_zero_total_division (qs : List Question) (limit : Option Int)
    (inputs : List String) (h : (applyLimit qs limit).length = 0) :
    runQuiz qs limit inputs = ⟨[.finalScore 0 0], .zeroDivisionError⟩ := by
  have h0 : applyLimit qs limit = [] := List.length_eq_zero.mp h
  have hq : quizLoop (applyLimit qs limit).length (applyLimit qs limit) inputs 0 0 1 =
      ([], .ranAll 0) := by
    rw [h0]
    rfl
  rw [runQuiz_done qs limit inputs [] 0 hq, if_pos h, h]
  simp

/-- C9 checked concretely on the empty question list. -/
theorem c9_zero_total_division_check :
    (applyLimit [] none).length = 0
    ∧ runQuiz [] none [] = ⟨[.finalScore 0 0], .zeroDivisionError⟩ :=
  ⟨rfl, c9_zero_total_division [] none [] rfl⟩

/-- C5: when the input stream closes while the session waits for an answer,
the session stops at once: the notice is the last thing printed, no final
score line and no pass or fail message is ever printed, and strictly fewer
running-score lines than presented questions exist, so the current question
is never scored and the previously printed running score stands. -/
theorem c5_eof_abort (qs : List Question) (limit : Option Int) (inputs : List String)
    (h : (runQuiz qs limit inputs).outcome = .inputClosed) :
    (runQuiz qs limit inputs).events.getLast? = some .inputClosed
    ∧ (∀ c t, Event.finalScore c t ∉ (runQuiz qs limit inputs).events)
    ∧ Event.passMsg ∉ (runQuiz qs limit inputs).events
    ∧ Event.failMsg ∉ (runQuiz qs limit inputs).events
    ∧ (runQuiz qs limit inputs).events.countP
        (fun e => match e with | .score _ _ => true | _ => false)
      < (applyLimit qs limit).length := by
  rcases hql : quizLoop (applyLimit qs limit).length (applyLimit qs limit) inputs 0 0 1
    with ⟨evs, ex⟩
  cases ex with
  | closed =>
    rw [runQuiz_closed qs limit inputs evs hql]
    have hsnd : (quizLoop (applyLimit qs limit).length (applyLimit qs limit) inputs 0 0 1).2 =
        .closed := by rw [hql]
    have hfst : (quizLoop (applyLimit qs limit).length (applyLimit qs limit) inputs 0 0 1).1 =
        evs := by rw [hql]
    have hshape := quizLoop_closed_shape (applyLimit qs limit).length (applyLimit qs limit)
      inputs 0 0 1 hsnd
    rw [hfst] at hshape
    refine ⟨hshape.1, ?_, ?_, ?_, hshape.2.2⟩
    · intro c t hmem
      rcases hshape.2.1 _ hmem with ⟨i, t2, he⟩ | ⟨a, b, he⟩ | he <;> exact Event.noConfusion he
    · intro hmem
      rcases hshape.2.1 _ hmem with ⟨i, t2, he⟩ | ⟨a, b, he⟩ | he <;> exact Event.noConfusion he
    · intro hmem
      rcases hshape.2.1 _ hmem with ⟨i, t2, he⟩ | ⟨a, b, he⟩ | he <;> exact Event.noConfusion he
  | indexErrorStop =>
    rw [runQuiz_idxErr qs limit inputs evs hql] at h
    exact Outcome.noConfusion h
  | ranAll c =>
    rw [runQuiz_done qs limit inputs evs c hql] at h
    split at h
    · exact Outcome.noConfusion h
    · split at h
      · exact Outcome.noConfusion h
      · exact Outcome.noConfusion h

/-- C5 checked concretely: one question, no input at all. -/
theorem c5_eof_abort_check :
    (runQuiz [qA] none []).outcome = .inputClosed
    ∧ ((runQuiz [qA] none []).events.getLast? = some .inputClosed
      ∧ (∀ c t, Event.finalScore c t ∉ (runQuiz [qA] none []).events)
      ∧ Event.passMsg ∉ (runQuiz [qA] none []).events
      ∧ Event.failMsg ∉ (runQuiz [qA] none []).events
      ∧ (runQuiz [qA] none []).events.countP
          (fun e => match e with | .score _ _ => true | _ => false)
        < (applyLimit [qA] none).length) :=
  ⟨by decide, c5_eof_abort [qA] none [] (by decide)⟩

theorem runQuiz_header_total (qs : List Question) (limit : Option Int)
    (inputs : List String) (i t : Nat)
    (h : Event.header i t ∈ (runQuiz qs limit inputs).events) :
    t = (applyLimit qs limit).length := by
  rcases hql : quizLoop (applyLimit qs limit).length (applyLimit qs limit) inputs 0 0 1
    with ⟨evs, ex⟩
  have hfst : (quizLoop (applyLimit qs limit).length (applyLimit qs limit) inputs 0 0 1).1 =
      evs := by rw [hql]
  have hloop := quizLoop_header_total (applyLimit qs limit).length (applyLimit qs limit)
    inputs 0 0 1 i t
  rw [hfst] at hloop
  cases ex with
  | closed =>
    rw [runQuiz_closed qs limit inputs evs hql] at h
    exact hloop h
  | indexErrorStop =>
    rw [runQuiz_idxErr qs limit inputs evs hql] at h
    exact hloop h
  | ranAll c =>
    rw [runQuiz_done qs limit inputs evs c hql] at h
    split at h
    · rcases List.mem_append.mp h with h | h
      · exact hloop h
      · simp at h
    · split at h
      · rcases List.mem_append.mp h with h | h
        · rcases List.mem_append.mp h with h | h
          · exact hloop h
          · simp at h
        · simp at h
      · rcases List.mem_append.mp h with h | h
        · rcases List.mem_append.mp h with h | h
          · exact hloop h
          · simp at h
        · simp at h

/-- C7 amended: for any integer limit, the session asks exactly the Python
slice `questions[:limit]` of the post-shuffle sequence — a prefix whose
length is `min(limit, len)` for a nonnegative limit but `max(len + limit, 0)`
for a negative one — and every displayed header shows that truncated length
as the total. -/
theorem c7_limit_slice_amended (qs : List Question) (n : Int) (inputs : List String) :
    applyLimit qs (some n) <+: qs
    ∧ (applyLimit qs (some n)).length =
        (if 0 ≤ n then min n.toNat qs.length else qs.length - (-n).toNat)
    ∧ (∀ i t, Event.header i t ∈ (runQuiz qs (some n) inputs).events →
        t = (applyLimit qs (some n)).length) := by
  refine ⟨?_, ?_, fun i t h => runQuiz_header_total qs (some n) inputs i t h⟩
  · show pySliceTo qs n <+: qs
    unfold pySliceTo
    split
    · exact ⟨qs.drop _, List.take_append_drop _ _⟩
    · exact ⟨qs.drop _, List.take_append_drop _ _⟩
  · by_cases h0 : (0 : Int) ≤ n
    · rw [show applyLimit qs (some n) = qs.take n.toNat by
        show pySliceTo qs n = _
        unfold pySliceTo
        rw [if_pos h0]]
      rw [if_pos h0, List.length_take]
    · rw [show applyLimit qs (some n) = qs.take (qs.length - (-n).toNat) by
        show pySliceTo qs n = _
        unfold pySliceTo
        rw [if_neg h0]]
      rw [if_neg h0, List.length_take]
      exact Nat.min_eq_left (Nat.sub_le _ _)

/-- C7 amended, checked concretely: with `limit = -1` over two questions one
question is asked and its header shows total 1, the truncated length. -/
theorem c7_limit_slice_amended_check :
    (Event.header 1 1 ∈ (runQuiz [qA, qB] (some (-1)) []).events)
    ∧ (1 : Nat) = (applyLimit [qA, qB] (some (-1))).length :=
  ⟨by decide, (c7_limit_slice_amended [qA, qB] (-1) ([] : List String)).2.2 1 1 (by decide)⟩
